import Mathlib

/-!
Verification of the CSV duplicate-detection engine.

Shallow embedding of the core of the `csv_merge` repository:
the worker algorithms (`normalizeEmail`, `calculateSimilarity`,
`buildEmailIndex`, `findDuplicates` from the csv worker module),
the Bloom prefilter (`BloomFilter`), the coordinator pieces of
`CSVDuplicateDetector` (`buildIndexFromChunk` merging,
`getIndexSubset`, `findDuplicatesInChunk`, the Phase-1 reset and the
Phase-3 `filterModifiedBasisFile` rebuild) and the `WorkerPool`
acquisition/termination protocol.

Strings are modelled as lists of UTF-16 code units (`List Nat`),
matching JavaScript's string representation: `charCodeAt` is list
indexing, `toLowerCase` is the ASCII lowercase map (the repository
only relies on ASCII case folding), `trim` removes the ECMAScript
whitespace/line-terminator code points at both ends.  Rational
numbers stand in for JavaScript's float arithmetic; every
comparison against the 0.70 threshold proved below is exact and far
from the representation error of binary64, so the verdicts coincide.
-/

set_option maxHeartbeats 1000000

/-- JavaScript strings as lists of UTF-16 code units. -/
abbrev Str := List Nat

/-- Encode a Lean string literal as a list of code units (used only to
state concrete scenarios; all source characters used are ASCII, where
code unit = code point). -/
def strLit (s : String) : Str := s.data.map Char.toNat

/-- ASCII lowercase of one code unit, the case folding `toLowerCase`
performs on the basic latin range (the only range the repository's
data relies on). -/
def jsLowerCode (c : Nat) : Nat := if 65 ≤ c ∧ c ≤ 90 then c + 32 else c

/-- Code-unit-wise `String.prototype.toLowerCase`. -/
def jsToLower (s : Str) : Str := s.map jsLowerCode

/-- Code points removed by `String.prototype.trim` (ECMAScript
WhiteSpace and LineTerminator). -/
def wsCodes : List Nat :=
  [9, 10, 11, 12, 13, 32, 160, 5760, 8192, 8193, 8194, 8195, 8196, 8197,
   8198, 8199, 8200, 8201, 8202, 8232, 8233, 8239, 8287, 12288, 65279]

/-- Whitespace predicate for `trim`. -/
def jsIsWS (c : Nat) : Bool := c ∈ wsCodes

/-- Remove leading whitespace. -/
def trimLeft : Str → Str
  | [] => []
  | c :: cs => if jsIsWS c then trimLeft cs else c :: cs

/-- Remove trailing whitespace. -/
def trimRight : Str → Str
  | [] => []
  | c :: cs =>
    let r := trimRight cs
    if r = [] ∧ jsIsWS c then [] else c :: r

/-- `String.prototype.trim`. -/
def jsTrim (s : Str) : Str := trimRight (trimLeft s)

/-- Worker `normalizeEmail`: `email.toLowerCase().trim()`, and `''` for a
missing value (the missing-field case is handled at the call sites by
`getField` returning `''`). -/
def normalizeEmail (s : Str) : Str := jsTrim (jsToLower s)

/-- Count of index positions in the shared overlap of two strings where
the code units agree — the `matches` loop of `calculateSimilarity`. -/
def matchCount : Str → Str → Nat
  | [], _ => 0
  | _, [] => 0
  | a :: as, b :: bs => (if a = b then 1 else 0) + matchCount as bs

/-- Worker `calculateSimilarity`: returns 0 if either raw string is
empty, lowercases and trims both, returns 1 on equality, 0 if either
normalized string is empty, otherwise positional matches over the
length of the longer string. -/
def calculateSimilarity (s1 s2 : Str) : ℚ :=
  if s1 = [] ∨ s2 = [] then 0
  else
    let t1 := jsTrim (jsToLower s1)
    let t2 := jsTrim (jsToLower s2)
    if t1 = t2 then 1
    else if t1.length = 0 then 0
    else if t2.length = 0 then 0
    else (matchCount t1 t2 : ℚ) / (max t1.length t2.length : ℚ)

theorem matchCount_le_left : ∀ s1 s2 : Str, matchCount s1 s2 ≤ s1.length := by
  intro s1
  induction s1 with
  | nil => intro s2; simp [matchCount]
  | cons a as ih =>
    intro s2
    cases s2 with
    | nil => simp [matchCount]
    | cons b bs =>
      simp only [matchCount, List.length_cons]
      have := ih bs
      split <;> omega

theorem matchCount_le_right : ∀ s1 s2 : Str, matchCount s1 s2 ≤ s2.length := by
  intro s1
  induction s1 with
  | nil => intro s2; simp [matchCount]
  | cons a as ih =>
    intro s2
    cases s2 with
    | nil => simp [matchCount]
    | cons b bs =>
      simp only [matchCount, List.length_cons]
      have := ih bs
      split <;> omega

theorem calculateSimilarity_nonneg (s1 s2 : Str) : 0 ≤ calculateSimilarity s1 s2 := by
  unfold calculateSimilarity
  split
  · norm_num
  · dsimp only
    split
    · norm_num
    · split
      · norm_num
      · split
        · norm_num
        · apply div_nonneg
          · exact_mod_cast Nat.zero_le _
          · exact_mod_cast Nat.zero_le _

theorem calculateSimilarity_le_one (s1 s2 : Str) : calculateSimilarity s1 s2 ≤ 1 := by
  unfold calculateSimilarity
  split
  · norm_num
  · dsimp only
    split
    · norm_num
    · split
      · norm_num
      · split
        · norm_num
        · rename_i h1 h2 h3 h4
          rw [div_le_one]
          · have hl := matchCount_le_left (jsTrim (jsToLower s1)) (jsTrim (jsToLower s2))
            have : matchCount (jsTrim (jsToLower s1)) (jsTrim (jsToLower s2)) ≤
                max (jsTrim (jsToLower s1)).length (jsTrim (jsToLower s2)).length :=
              le_trans hl (Nat.le_max_left _ _)
            exact_mod_cast this
          · have : 0 < max (jsTrim (jsToLower s1)).length (jsTrim (jsToLower s2)).length := by
              omega
            exact_mod_cast this

theorem trimLeft_head_not_ws : ∀ {s : Str} {c : Nat} {t : Str},
    trimLeft s = c :: t → jsIsWS c = false := by
  intro s
  induction s with
  | nil => intro c t h; simp [trimLeft] at h
  | cons a as ih =>
    intro c t h
    by_cases hw : jsIsWS a
    · rw [trimLeft, if_pos hw] at h
      exact ih h
    · rw [trimLeft, if_neg hw] at h
      cases h
      simpa using hw

theorem trimLeft_idem (s : Str) : trimLeft (trimLeft s) = trimLeft s := by
  induction s with
  | nil => rfl
  | cons a as ih =>
    by_cases hw : jsIsWS a
    · rw [trimLeft, if_pos hw, ih]
    · rw [trimLeft, if_neg hw, trimLeft, if_neg hw]

theorem trimRight_cons (c : Nat) (cs : Str) :
    trimRight (c :: cs) =
      if trimRight cs = [] ∧ jsIsWS c then [] else c :: trimRight cs := rfl

theorem trimRight_cases (c : Nat) (cs : Str) :
    trimRight (c :: cs) = [] ∨ trimRight (c :: cs) = c :: trimRight cs := by
  rw [trimRight_cons]
  split
  · exact Or.inl rfl
  · exact Or.inr rfl

theorem trimRight_idem (s : Str) : trimRight (trimRight s) = trimRight s := by
  induction s with
  | nil => rfl
  | cons a as ih =>
    rcases trimRight_cases a as with h | h
    · rw [h]; rfl
    · rw [h, trimRight_cons, ih]
      have hcond : ¬ (trimRight as = [] ∧ jsIsWS a = true) := by
        intro hc
        have hnil : trimRight (a :: as) = [] := by
          rw [trimRight_cons, if_pos hc]
        rw [h] at hnil
        simp at hnil
      rw [if_neg hcond]

theorem trimLeft_trimRight_of_trimLeft_eq {s : Str} (h : trimLeft s = s) :
    trimLeft (trimRight s) = trimRight s := by
  cases s with
  | nil => rfl
  | cons a as =>
    have hw : jsIsWS a = false := trimLeft_head_not_ws h
    rcases trimRight_cases a as with h' | h'
    · rw [h']; rfl
    · rw [h', trimLeft, if_neg (by simp [hw])]

theorem jsTrim_idem (s : Str) : jsTrim (jsTrim s) = jsTrim s := by
  unfold jsTrim
  have h1 : trimLeft (trimLeft s) = trimLeft s := trimLeft_idem s
  have h2 : trimLeft (trimRight (trimLeft s)) = trimRight (trimLeft s) :=
    trimLeft_trimRight_of_trimLeft_eq h1
  rw [h2, trimRight_idem]

theorem jsTrim_head_not_ws {s : Str} {c : Nat} {t : Str}
    (h : jsTrim s = c :: t) : jsIsWS c = false := by
  unfold jsTrim at h
  cases hl : trimLeft s with
  | nil => rw [hl] at h; simp [trimRight] at h
  | cons d ds =>
    have hw : jsIsWS d = false := trimLeft_head_not_ws hl
    rw [hl] at h
    rcases trimRight_cases d ds with h' | h'
    · rw [h'] at h; simp at h
    · rw [h'] at h
      cases h
      exact hw

theorem jsLowerCode_idem (c : Nat) : jsLowerCode (jsLowerCode c) = jsLowerCode c := by
  by_cases h : 65 ≤ c ∧ c ≤ 90
  · simp only [jsLowerCode, if_pos h]
    rw [if_neg (by omega)]
  · simp only [jsLowerCode, if_neg h]

theorem jsIsWS_lowerCode (c : Nat) : jsIsWS (jsLowerCode c) = jsIsWS c := by
  unfold jsLowerCode
  split
  · rename_i h
    simp only [jsIsWS, wsCodes, List.mem_cons, List.not_mem_nil, or_false, decide_eq_decide]
    omega
  · rfl

theorem jsToLower_idem (s : Str) : jsToLower (jsToLower s) = jsToLower s := by
  simp only [jsToLower, List.map_map]
  apply List.map_congr_left
  intro a _
  exact jsLowerCode_idem a

theorem trimLeft_jsToLower (s : Str) : trimLeft (jsToLower s) = jsToLower (trimLeft s) := by
  induction s with
  | nil => rfl
  | cons a as ih =>
    simp only [jsToLower, List.map_cons] at *
    by_cases hw : jsIsWS a
    · rw [trimLeft, if_pos (by rw [jsIsWS_lowerCode]; exact hw), ih,
        trimLeft, if_pos hw]
    · rw [trimLeft, if_neg (by rw [jsIsWS_lowerCode]; exact hw),
        trimLeft, if_neg hw, List.map_cons]

theorem trimRight_jsToLower (s : Str) : trimRight (jsToLower s) = jsToLower (trimRight s) := by
  induction s with
  | nil => rfl
  | cons a as ih =>
    simp only [jsToLower, List.map_cons] at *
    rw [trimRight_cons, trimRight_cons, ih]
    by_cases hnil : trimRight as = []
    · rw [hnil]
      by_cases hw : jsIsWS a
      · rw [if_pos ⟨rfl, by rw [jsIsWS_lowerCode]; exact hw⟩, if_pos ⟨rfl, hw⟩]
        rfl
      · rw [if_neg (by simp [jsIsWS_lowerCode, hw]), if_neg (by simp [hw])]
        rfl
    · rw [if_neg (by simp [hnil, jsIsWS_lowerCode]),
        if_neg (by simp [hnil]), List.map_cons]

theorem jsTrim_jsToLower (s : Str) : jsTrim (jsToLower s) = jsToLower (jsTrim s) := by
  unfold jsTrim
  rw [trimLeft_jsToLower, trimRight_jsToLower]

theorem normalizeEmail_idem (s : Str) : normalizeEmail (normalizeEmail s) = normalizeEmail s := by
  unfold normalizeEmail
  rw [jsTrim_jsToLower, jsTrim_idem, ← jsTrim_jsToLower, jsToLower_idem]

theorem matchCount_self (s : Str) : matchCount s s = s.length := by
  induction s with
  | nil => rfl
  | cons a as ih => simp [matchCount, ih]; omega

theorem matchCount_nil_right (s : Str) : matchCount s [] = 0 := by
  cases s <;> rfl

theorem eq_of_matchCount_eq_length : ∀ {s1 s2 : Str},
    matchCount s1 s2 = s1.length → s1.length = s2.length → s1 = s2 := by
  intro s1
  induction s1 with
  | nil =>
    intro s2 _ hlen
    cases s2 with
    | nil => rfl
    | cons b bs => simp at hlen
  | cons a as ih =>
    intro s2 hm hlen
    cases s2 with
    | nil => simp at hlen
    | cons b bs =>
      simp only [matchCount, List.length_cons] at hm hlen
      have hle := matchCount_le_left as bs
      have hab : a = b := by
        by_contra hne
        rw [if_neg hne] at hm
        omega
      have : matchCount as bs = as.length := by
        rw [if_pos hab] at hm
        omega
      rw [hab, ih this (by omega)]

theorem calculateSimilarity_eq_one_iff (s1 s2 : Str) :
    calculateSimilarity s1 s2 = 1 ↔
      s1 ≠ [] ∧ s2 ≠ [] ∧ jsTrim (jsToLower s1) = jsTrim (jsToLower s2) := by
  unfold calculateSimilarity
  split
  · rename_i h
    constructor
    · intro h1; norm_num at h1
    · intro ⟨h1, h2, _⟩
      rcases h with h | h
      · exact absurd h h1
      · exact absurd h h2
  · rename_i h
    push_neg at h
    dsimp only
    split
    · rename_i heq
      simp [h.1, h.2, heq]
    · rename_i hne
      have hnotone : ∀ q : ℚ, q = 0 → ¬ (q = 1) := by intro q hq; rw [hq]; norm_num
      split
    -- normalized first string empty: result 0, never 1
      · simp only [h.1, h.2, hne, ne_eq, not_false_eq_true, true_and]
        norm_num
      · split
        · simp only [h.1, h.2, hne, ne_eq, not_false_eq_true, true_and]
          norm_num
        · rename_i hl1 hl2
          constructor
          · intro hdiv
            exfalso
            have hmaxpos : (0 : ℚ) < (max (jsTrim (jsToLower s1)).length (jsTrim (jsToLower s2)).length : ℚ) := by
              have : 0 < max (jsTrim (jsToLower s1)).length (jsTrim (jsToLower s2)).length := by omega
              exact_mod_cast this
            rw [div_eq_one_iff_eq (ne_of_gt hmaxpos)] at hdiv
            have hmceq : matchCount (jsTrim (jsToLower s1)) (jsTrim (jsToLower s2)) =
                max (jsTrim (jsToLower s1)).length (jsTrim (jsToLower s2)).length := by
              exact_mod_cast hdiv
            have hle1 := matchCount_le_left (jsTrim (jsToLower s1)) (jsTrim (jsToLower s2))
            have hle2 := matchCount_le_right (jsTrim (jsToLower s1)) (jsTrim (jsToLower s2))
            have hlen : (jsTrim (jsToLower s1)).length = (jsTrim (jsToLower s2)).length := by
              omega
            have hmc : matchCount (jsTrim (jsToLower s1)) (jsTrim (jsToLower s2)) =
                (jsTrim (jsToLower s1)).length := by omega
            exact hne (eq_of_matchCount_eq_length hmc hlen)
          · intro ⟨_, _, heq⟩
            exact absurd heq hne

/-- Similarity as the specification words it: compare the
case-insensitively lowered, trimmed strings; either raw string empty
gives 0; identical normalized strings give 1; otherwise the count of
agreeing index positions in the shared overlap divided by the length of
the longer string.  (The spec's two degenerate rules "identical → 1"
and "either empty → 0" overlap only on empty input, where the
implementation's empty-first order is the consistent disambiguation.) -/
def specSimilarity (s1 s2 : Str) : ℚ :=
  if s1 = [] ∨ s2 = [] then 0
  else
    let t1 := jsTrim (jsToLower s1)
    let t2 := jsTrim (jsToLower s2)
    if t1 = t2 then 1
    else (matchCount t1 t2 : ℚ) / (max t1.length t2.length : ℚ)

theorem calculateSimilarity_eq_spec (s1 s2 : Str) :
    calculateSimilarity s1 s2 = specSimilarity s1 s2 := by
  unfold calculateSimilarity specSimilarity
  split
  · rfl
  · dsimp only
    split
    · rfl
    · split
      · rename_i hl1
        rw [List.length_eq_zero] at hl1
        rw [hl1, matchCount]
        norm_num
      · split
        · rename_i hl2
          rw [List.length_eq_zero] at hl2
          rw [hl2, matchCount_nil_right]
          norm_num
        · rfl

/-- A parsed CSV row: ordered field-name to value mapping (Papa Parse
with `header: true` produces one JS object per row). -/
abbrev Row := List (Str × Str)

/-- Field read `row[col]` with the `|| ''` / `undefined`-to-`''`
convention applied at every use site in the source. -/
def getField : Row → Str → Str
  | [], _ => []
  | (k, v) :: rest, col => if k = col then v else getField rest col

/-- Field write `row[col] = value` (JS object assignment: replaces the
existing entry, or appends a new key at the end). -/
def setField : Row → Str → Str → Row
  | [], col, v => [(col, v)]
  | (k, x) :: rest, col, v =>
    if k = col then (col, v) :: rest else (k, x) :: setField rest col v

/-- Column mapping configuration `{emailColumn, firstNameColumn,
lastNameColumn, splitNameColumn, groupsColumn?}`. -/
structure ColumnMapping where
  emailColumn : Str
  firstNameColumn : Str
  lastNameColumn : Str
  splitNameColumn : Bool
  groupsColumn : Option Str := none

/-- JS `fullName.indexOf(' ')` as an option (`none` for `-1`). -/
def indexOfSpace : Str → Option Nat
  | [] => none
  | c :: cs => if c = 32 then some 0 else (indexOfSpace cs).map (· + 1)

/-- Split of a (trimmed) combined name at its first space, exactly as
both `buildEmailIndex` and `findDuplicates` do it: `spaceIndex > 0`
splits into `substring(0, spaceIndex)` and `substring(spaceIndex + 1)`;
otherwise the whole string is the first name and the last name is
empty. -/
def splitFullName (fullName : Str) : Str × Str :=
  match indexOfSpace fullName with
  | some i => if 0 < i then (fullName.take i, fullName.drop (i + 1)) else (fullName, [])
  | none => (fullName, [])

/-- Derivation of `firstName`/`lastName` from a row, shared verbatim by
`buildEmailIndex`, `findDuplicates` and the Phase-3 rebuild: split the
trimmed combined column when `splitNameColumn` is set and both name
columns coincide, otherwise read the two columns separately. -/
def deriveNames (row : Row) (m : ColumnMapping) : Str × Str :=
  if m.splitNameColumn = true ∧ m.firstNameColumn = m.lastNameColumn then
    splitFullName (jsTrim (getField row m.firstNameColumn))
  else
    (getField row m.firstNameColumn, getField row m.lastNameColumn)

/-- An indexed record `{email, firstName, lastName, sourceFile,
rowIndex, originalRow}`. -/
structure Rec where
  email : Str
  firstName : Str
  lastName : Str
  sourceFile : Str
  rowIndex : Nat
  originalRow : Row
deriving DecidableEq

/-- The key → record-list index (a JS object / `Map`; string keys keep
insertion order, so an association list is the faithful rendering). -/
abbrev EmailIndex := List (Str × List Rec)

/-- Lookup `index[email]` / `index.get(email)`. -/
def idxLookup : EmailIndex → Str → Option (List Rec)
  | [], _ => none
  | (k, recs) :: rest, e => if k = e then some recs else idxLookup rest e

/-- Keys of the index, in insertion order. -/
def idxKeys (idx : EmailIndex) : List Str := idx.map Prod.fst

/-- Append one record under a key: `if (!index[email]) index[email] = [];
index[email].push(record)`. -/
def idxInsert : EmailIndex → Str → Rec → EmailIndex
  | [], e, r => [(e, [r])]
  | (k, recs) :: rest, e, r =>
    if k = e then (k, recs ++ [r]) :: rest else (k, recs) :: idxInsert rest e r

/-- Append a list of records under a key (the merge step of
`buildIndexFromChunk`). -/
def idxInsertMany : EmailIndex → Str → List Rec → EmailIndex
  | [], e, rs => [(e, rs)]
  | (k, recs) :: rest, e, rs =>
    if k = e then (k, recs ++ rs) :: rest else (k, recs) :: idxInsertMany rest e rs

/-- Loop body of the worker's `buildEmailIndex`: walk the chunk with its
row index, skip rows whose normalized email is empty, otherwise derive
the names and append a record under the email. -/
def buildEmailIndexAux (src : Str) (m : ColumnMapping) : List Row → Nat → EmailIndex → EmailIndex
  | [], _, acc => acc
  | row :: rows, i, acc =>
    let email := normalizeEmail (getField row m.emailColumn)
    if email = [] then
      buildEmailIndexAux src m rows (i + 1) acc
    else
      let names := deriveNames row m
      buildEmailIndexAux src m rows (i + 1)
        (idxInsert acc email ⟨email, names.1, names.2, src, i, row⟩)

/-- Worker `buildEmailIndex(chunk, sourceFile, columnMapping)`. -/
def buildEmailIndex (chunk : List Row) (src : Str) (m : ColumnMapping) : EmailIndex :=
  buildEmailIndexAux src m chunk 0 []

/-- Confidence of a row (with derived names `f`, `l`) against one
candidate record: `(1.0 + firstNameSim + lastNameSim) / 3`. -/
def confWith (f l : Str) (c : Rec) : ℚ :=
  (1 + calculateSimilarity f c.firstName + calculateSimilarity l c.lastName) / 3

/-- A duplicate result `{id, email, firstName, lastName, sourceFile,
confidence, rowIndex}` (the optional classifier tags, external business
data per the spec, are not modelled: they never affect matching). -/
structure Duplicate where
  id : Str
  email : Str
  firstName : Str
  lastName : Str
  sourceFile : Str
  confidence : ℚ
  rowIndex : Nat
deriving DecidableEq

/-- Result id `` `${email}-${sourceFile}-${i}` ``. -/
def dupId (email src : Str) (i : Nat) : Str :=
  email ++ [45] ++ src ++ [45] ++ strLit (toString i)

/-- The duplicate emitted for row `i` when candidate `c` is accepted. -/
def mkDuplicate (email f l src : Str) (i : Nat) (c : Rec) : Duplicate :=
  ⟨dupId email src i, email, f, l, src, confWith f l c, i⟩

/-- Candidate scan of `findDuplicates` for one row: skip candidates from
the same source file, accept the first whose confidence reaches 0.7
(`break` after the push), otherwise keep scanning. -/
def findFirstMatch (src f l : Str) : List Rec → Option Rec
  | [] => none
  | c :: cs =>
    if c.sourceFile = src then findFirstMatch src f l cs
    else if 7/10 ≤ confWith f l c then some c
    else findFirstMatch src f l cs

/-- Loop body of the worker's `findDuplicates`: for each row, normalize
the email, look it up in the supplied index, derive the names, scan the
candidates and emit at most one duplicate for the row. -/
def findDuplicatesAux (idx : EmailIndex) (src : Str) (m : ColumnMapping) :
    List Row → Nat → List Duplicate
  | [], _ => []
  | row :: rows, i =>
    let email := normalizeEmail (getField row m.emailColumn)
    let rest := findDuplicatesAux idx src m rows (i + 1)
    if email = [] then rest
    else
      match idxLookup idx email with
      | none => rest
      | some cands =>
        let names := deriveNames row m
        match findFirstMatch src names.1 names.2 cands with
        | some c => mkDuplicate email names.1 names.2 src i c :: rest
        | none => rest

/-- Worker `findDuplicates(chunk, emailIndex, sourceFile, columnMapping)`. -/
def findDuplicates (chunk : List Row) (idx : EmailIndex) (src : Str) (m : ColumnMapping) :
    List Duplicate :=
  findDuplicatesAux idx src m chunk 0

theorem idxKeys_idxInsert {idx : EmailIndex} {k e : Str} {r : Rec}
    (h : k ∈ idxKeys (idxInsert idx e r)) : k ∈ idxKeys idx ∨ k = e := by
  induction idx with
  | nil =>
    simp [idxInsert, idxKeys] at h
    exact Or.inr h
  | cons p rest ih =>
    obtain ⟨pk, precs⟩ := p
    rw [idxInsert] at h
    split at h
    · rename_i heq
      simp only [idxKeys, List.map_cons, List.mem_cons] at h ⊢
      rcases h with h | h
      · exact Or.inl (Or.inl (heq ▸ h))
      · exact Or.inl (Or.inr h)
    · simp only [idxKeys, List.map_cons, List.mem_cons] at h ⊢
      rcases h with h | h
      · exact Or.inl (Or.inl h)
      · rcases ih h with h' | h'
        · exact Or.inl (Or.inr h')
        · exact Or.inr h'

theorem idxKeys_buildEmailIndexAux {src : Str} {m : ColumnMapping} :
    ∀ (rows : List Row) (i : Nat) (acc : EmailIndex) (k : Str),
      k ∈ idxKeys (buildEmailIndexAux src m rows i acc) →
      k ∈ idxKeys acc ∨
        (k ≠ [] ∧ ∃ row ∈ rows, k = normalizeEmail (getField row m.emailColumn)) := by
  intro rows
  induction rows with
  | nil =>
    intro i acc k h
    exact Or.inl h
  | cons row rest ih =>
    intro i acc k h
    rw [buildEmailIndexAux] at h
    by_cases he : normalizeEmail (getField row m.emailColumn) = []
    · rw [if_pos he] at h
      rcases ih _ _ _ h with h' | ⟨hne, row', hmem, hk⟩
      · exact Or.inl h'
      · exact Or.inr ⟨hne, row', List.mem_cons_of_mem _ hmem, hk⟩
    · rw [if_neg he] at h
      rcases ih _ _ _ h with h' | ⟨hne, row', hmem, hk⟩
      · rcases idxKeys_idxInsert h' with h'' | h''
        · exact Or.inl h''
        · exact Or.inr ⟨h'' ▸ he, row, List.mem_cons_self _ _, h''⟩
      · exact Or.inr ⟨hne, row', List.mem_cons_of_mem _ hmem, hk⟩

theorem idxKeys_buildEmailIndex {chunk : List Row} {src : Str} {m : ColumnMapping} {k : Str}
    (h : k ∈ idxKeys (buildEmailIndex chunk src m)) :
    k ≠ [] ∧ ∃ row ∈ chunk, k = normalizeEmail (getField row m.emailColumn) := by
  rcases idxKeys_buildEmailIndexAux chunk 0 [] k h with h' | h'
  · simp [idxKeys] at h'
  · exact h'

theorem idxLookup_isSome_iff_mem_keys (idx : EmailIndex) (k : Str) :
    (idxLookup idx k).isSome ↔ k ∈ idxKeys idx := by
  induction idx with
  | nil => simp [idxLookup, idxKeys]
  | cons p rest ih =>
    obtain ⟨pk, precs⟩ := p
    rw [idxLookup]
    by_cases h : pk = k
    · simp [h, idxKeys]
    · simp only [if_neg h, idxKeys, List.map_cons, List.mem_cons]
      rw [ih]
      constructor
      · intro hm; exact Or.inr hm
      · intro hm
        rcases hm with hm | hm
        · exact absurd hm.symm h
        · exact hm

/-- Index well-formedness: every record stored under a key carries that
key as its email — "the keys match". -/
def IdxWF (idx : EmailIndex) : Prop :=
  ∀ k recs, idxLookup idx k = some recs → ∀ r ∈ recs, r.email = k

theorem idxLookup_idxInsert (idx : EmailIndex) (e : Str) (r : Rec) (k : Str) :
    idxLookup (idxInsert idx e r) k =
      if k = e then some ((idxLookup idx e).getD [] ++ [r]) else idxLookup idx k := by
  induction idx with
  | nil =>
    by_cases h : k = e
    · subst h
      simp [idxInsert, idxLookup]
    · have h' : ¬ e = k := fun hh => h hh.symm
      simp [idxInsert, idxLookup, h, h']
  | cons p rest ih =>
    obtain ⟨pk, precs⟩ := p
    by_cases hpe : pk = e
    · subst hpe
      by_cases hk : k = pk
      · subst hk
        simp [idxInsert, idxLookup]
      · have hk' : ¬ pk = k := fun hh => hk hh.symm
        simp [idxInsert, idxLookup, hk, hk']
    · by_cases hpk : pk = k
      · subst hpk
        have hk : ¬ pk = e := hpe
        simp [idxInsert, idxLookup, hpe, hk]
      · simp [idxInsert, idxLookup, hpe, hpk, ih]

theorem idxWF_idxInsert {idx : EmailIndex} {e : Str} {r : Rec}
    (hwf : IdxWF idx) (hr : r.email = e) : IdxWF (idxInsert idx e r) := by
  intro k recs hlk r' hmem
  rw [idxLookup_idxInsert] at hlk
  split at hlk
  · rename_i hk
    cases hlk
    rcases List.mem_append.1 hmem with hm | hm
    · cases hget : idxLookup idx e with
      | none => rw [hget] at hm; simp at hm
      | some recs0 =>
        rw [hget] at hm
        simp only [Option.getD_some] at hm
        exact hk ▸ (hwf e recs0 hget r' hm)
    · rw [List.mem_singleton] at hm
      rw [hm, hr, hk]
  · exact hwf k recs hlk r' hmem

theorem idxWF_buildEmailIndexAux {src : Str} {m : ColumnMapping} :
    ∀ (rows : List Row) (i : Nat) (acc : EmailIndex),
      IdxWF acc → IdxWF (buildEmailIndexAux src m rows i acc) := by
  intro rows
  induction rows with
  | nil => intro i acc h; exact h
  | cons row rest ih =>
    intro i acc h
    rw [buildEmailIndexAux]
    by_cases he : normalizeEmail (getField row m.emailColumn) = []
    · rw [if_pos he]; exact ih _ _ h
    · rw [if_neg he]
      exact ih _ _ (idxWF_idxInsert h rfl)

theorem idxWF_buildEmailIndex (chunk : List Row) (src : Str) (m : ColumnMapping) :
    IdxWF (buildEmailIndex chunk src m) :=
  idxWF_buildEmailIndexAux chunk 0 [] (fun _ _ h => by simp [idxLookup] at h)

theorem confWith_nonneg (f l : Str) (c : Rec) : 0 ≤ confWith f l c := by
  unfold confWith
  have h1 := calculateSimilarity_nonneg f c.firstName
  have h2 := calculateSimilarity_nonneg l c.lastName
  linarith

theorem confWith_le_one (f l : Str) (c : Rec) : confWith f l c ≤ 1 := by
  unfold confWith
  have h1 := calculateSimilarity_le_one f c.firstName
  have h2 := calculateSimilarity_le_one l c.lastName
  linarith

theorem confWith_eq_one_iff (f l : Str) (c : Rec) :
    confWith f l c = 1 ↔
      calculateSimilarity f c.firstName = 1 ∧ calculateSimilarity l c.lastName = 1 := by
  unfold confWith
  constructor
  · intro h
    have h1 := calculateSimilarity_le_one f c.firstName
    have h2 := calculateSimilarity_le_one l c.lastName
    have h3 := calculateSimilarity_nonneg f c.firstName
    have h4 := calculateSimilarity_nonneg l c.lastName
    constructor <;> linarith [ (by linarith : calculateSimilarity f c.firstName + calculateSimilarity l c.lastName = 2) ]
  · intro ⟨h1, h2⟩
    rw [h1, h2]
    norm_num

theorem findFirstMatch_eq_find? (src f l : Str) (cands : List Rec) :
    findFirstMatch src f l cands =
      cands.find? (fun c => decide (c.sourceFile ≠ src ∧ 7/10 ≤ confWith f l c)) := by
  induction cands with
  | nil => rfl
  | cons c cs ih =>
    rw [findFirstMatch, List.find?]
    by_cases hsrc : c.sourceFile = src
    · rw [if_pos hsrc]
      have : (decide (c.sourceFile ≠ src ∧ 7/10 ≤ confWith f l c)) = false := by
        simp [hsrc]
      rw [this, ih]
    · rw [if_neg hsrc]
      by_cases hconf : 7/10 ≤ confWith f l c
      · rw [if_pos hconf]
        have : (decide (c.sourceFile ≠ src ∧ 7/10 ≤ confWith f l c)) = true := by
          simp [hsrc, hconf]
        rw [this]
      · rw [if_neg hconf]
        have : (decide (c.sourceFile ≠ src ∧ 7/10 ≤ confWith f l c)) = false := by
          simp [hsrc, hconf]
        rw [this, ih]

theorem findFirstMatch_some {src f l : Str} {cands : List Rec} {c : Rec}
    (h : findFirstMatch src f l cands = some c) :
    c ∈ cands ∧ c.sourceFile ≠ src ∧ 7/10 ≤ confWith f l c := by
  rw [findFirstMatch_eq_find?] at h
  refine ⟨List.mem_of_find?_eq_some h, ?_⟩
  have := List.find?_some h
  simpa using this

theorem findFirstMatch_none {src f l : Str} {cands : List Rec}
    (h : findFirstMatch src f l cands = none) :
    ∀ c ∈ cands, c.sourceFile ≠ src → confWith f l c < 7/10 := by
  rw [findFirstMatch_eq_find?] at h
  rw [List.find?_eq_none] at h
  intro c hmem hsrc
  have := h c hmem
  simp only [decide_eq_true_eq, not_and, not_le] at this
  exact this hsrc

theorem findDuplicatesAux_rowIndex_ge {idx : EmailIndex} {src : Str} {m : ColumnMapping} :
    ∀ (rows : List Row) (i : Nat) (d : Duplicate),
      d ∈ findDuplicatesAux idx src m rows i → i ≤ d.rowIndex := by
  intro rows
  induction rows with
  | nil => intro i d h; simp [findDuplicatesAux] at h
  | cons row rest ih =>
    intro i d h
    rw [findDuplicatesAux] at h
    dsimp only at h
    split at h
    · exact Nat.le_of_succ_le (ih _ _ h)
    · split at h
      · exact Nat.le_of_succ_le (ih _ _ h)
      · split at h
        · rcases List.mem_cons.1 h with h' | h'
          · rw [h']; rfl
          · exact Nat.le_of_succ_le (ih _ _ h')
        · exact Nat.le_of_succ_le (ih _ _ h)

theorem findDuplicatesAux_countP_le_one {idx : EmailIndex} {src : Str} {m : ColumnMapping} :
    ∀ (rows : List Row) (i j : Nat),
      ((findDuplicatesAux idx src m rows i).filter (fun d => d.rowIndex = j)).length ≤ 1 := by
  intro rows
  induction rows with
  | nil => intro i j; simp [findDuplicatesAux]
  | cons row rest ih =>
    intro i j
    rw [findDuplicatesAux]
    dsimp only
    split
    · exact ih _ _
    · split
      · exact ih _ _
      · split
        · rename_i c hc
          rw [List.filter]
          split
          · rename_i hj
            simp only [decide_eq_true_eq] at hj
            have hrest : (findDuplicatesAux idx src m rest (i + 1)).filter
                (fun d => d.rowIndex = j) = [] := by
              rw [List.filter_eq_nil_iff]
              intro d hd
              have := findDuplicatesAux_rowIndex_ge rest (i + 1) d hd
              simp only [decide_eq_true_eq]
              intro hdj
              rw [hdj] at this
              simp only [mkDuplicate] at hj
              omega
            rw [hrest]
            simp
          · exact ih _ _
        · exact ih _ _

/-- Bloom filter state: bit-array size, number of hash functions, and
the set of set bit indices (the byte-packed `Uint8Array` is modelled as
the set of bits that are 1).  The constructor computes `size` and
`hashCount` from the expected element count and false-positive rate via
`Math.log`; those transcendental formulas are kept abstract here as the
two parameters — for every expected count n ≥ 1 and rate 0 < p < 1 the
ceiling formulas yield `size ≥ 1` and `hashCount ≥ 1`. -/
structure BloomFilter where
  size : Nat
  hashCount : Nat
  bits : Finset Nat
deriving DecidableEq

/-- Fresh filter with all bits 0. -/
def mkBloomFilter (size hashCount : Nat) : BloomFilter := ⟨size, hashCount, ∅⟩

/-- Seeded rolling hash: `hash = ((hash * 31) + charCode) & 0x7fffffff`
per character (the `& 0x7fffffff` mask on a JS number in this range is
reduction mod 2^31), then `% size`. -/
def bloomHash (size : Nat) (item : Str) (seed : Nat) : Nat :=
  (item.foldl (fun h c => (h * 31 + c) % 2 ^ 31) seed) % size

/-- `add(item)`: set the `hashCount` bits indexed by the seeded hashes. -/
def BloomFilter.add (bf : BloomFilter) (item : Str) : BloomFilter :=
  { bf with bits := bf.bits ∪ (Finset.range bf.hashCount).image (bloomHash bf.size item) }

/-- `test(item)`: false iff some corresponding bit is unset. -/
def BloomFilter.test (bf : BloomFilter) (item : Str) : Bool :=
  decide (∀ i ∈ Finset.range bf.hashCount, bloomHash bf.size item i ∈ bf.bits)

/-- `clear()`: zero all bits. -/
def BloomFilter.clear (bf : BloomFilter) : BloomFilter := { bf with bits := ∅ }

/-- A sequence of `add` operations with no intervening `clear`. -/
def bloomAddAll (bf : BloomFilter) (items : List Str) : BloomFilter :=
  items.foldl BloomFilter.add bf

theorem BloomFilter.size_add (bf : BloomFilter) (x : Str) : (bf.add x).size = bf.size := rfl

theorem BloomFilter.hashCount_add (bf : BloomFilter) (x : Str) :
    (bf.add x).hashCount = bf.hashCount := rfl

theorem BloomFilter.bits_subset_add (bf : BloomFilter) (x : Str) :
    bf.bits ⊆ (bf.add x).bits := by
  intro b hb
  exact Finset.mem_union_left _ hb

theorem bloomAddAll_cons (bf : BloomFilter) (x : Str) (xs : List Str) :
    bloomAddAll bf (x :: xs) = bloomAddAll (bf.add x) xs := rfl

theorem bloomAddAll_size (bf : BloomFilter) (items : List Str) :
    (bloomAddAll bf items).size = bf.size := by
  induction items generalizing bf with
  | nil => rfl
  | cons x xs ih => rw [bloomAddAll_cons, ih]; rfl

theorem bloomAddAll_hashCount (bf : BloomFilter) (items : List Str) :
    (bloomAddAll bf items).hashCount = bf.hashCount := by
  induction items generalizing bf with
  | nil => rfl
  | cons x xs ih => rw [bloomAddAll_cons, ih]; rfl

theorem bloomAddAll_bits_subset (bf : BloomFilter) (items : List Str) :
    bf.bits ⊆ (bloomAddAll bf items).bits := by
  induction items generalizing bf with
  | nil => exact fun b hb => hb
  | cons x xs ih =>
    rw [bloomAddAll_cons]
    exact fun b hb => ih (bf.add x) (BloomFilter.bits_subset_add bf x hb)

theorem BloomFilter.test_of_bits_subset {bf bf' : BloomFilter} (x : Str)
    (hsz : bf'.size = bf.size) (hhc : bf'.hashCount = bf.hashCount)
    (hsub : bf.bits ⊆ bf'.bits) (h : bf.test x = true) : bf'.test x = true := by
  unfold BloomFilter.test at *
  rw [decide_eq_true_eq] at *
  intro i hi
  rw [hsz, hhc] at *
  exact hsub (h i hi)

theorem bloom_test_add_self (bf : BloomFilter) (x : Str) : (bf.add x).test x = true := by
  unfold BloomFilter.test BloomFilter.add
  rw [decide_eq_true_eq]
  intro i hi
  dsimp only at *
  exact Finset.mem_union_right _ (Finset.mem_image_of_mem _ hi)

theorem bloom_test_addAll_mem {bf : BloomFilter} {items : List Str} {x : Str}
    (hx : x ∈ items) : (bloomAddAll bf items).test x = true := by
  induction items generalizing bf with
  | nil => simp at hx
  | cons y ys ih =>
    rw [bloomAddAll_cons]
    rcases List.mem_cons.1 hx with h | h
    · subst h
      by_cases hmem : x ∈ ys
      · exact ih hmem
      · have htest : (bf.add x).test x = true := bloom_test_add_self bf x
        exact BloomFilter.test_of_bits_subset x
          (by rw [bloomAddAll_size]) (by rw [bloomAddAll_hashCount])
          (bloomAddAll_bits_subset (bf.add x) ys) htest
    · exact ih h

/-- Merge of one worker-built chunk index into the coordinator's main
index (`buildIndexFromChunk`): for each key of the chunk index, append
its records under that key and add the key to the Bloom filter. -/
def mergeChunkIndex (main : EmailIndex) (bf : BloomFilter) (chunkIdx : EmailIndex) :
    EmailIndex × BloomFilter :=
  chunkIdx.foldl (fun acc p => (idxInsertMany acc.1 p.1 p.2, acc.2.add p.1)) (main, bf)

/-- Normalized emails of a chunk that pass the Bloom prefilter
(`candidateEmails` in `findDuplicatesInChunk`). -/
def candidateEmails (bf : BloomFilter) (chunk : List Row) (m : ColumnMapping) : List Str :=
  (chunk.map (fun row => normalizeEmail (getField row m.emailColumn))).filter
    (fun e => ¬ e = [] ∧ bf.test e = true)

/-- Accumulating pass of `getIndexSubset`: `subset[email] = records` for
every candidate email found in the index (assigning an existing key
again writes the identical value, hence the skip). -/
def getIndexSubsetAux (idx : EmailIndex) : List Str → EmailIndex → EmailIndex
  | [], acc => acc
  | e :: es, acc =>
    match idxLookup idx e with
    | some recs =>
      if (idxLookup acc e).isSome then getIndexSubsetAux idx es acc
      else getIndexSubsetAux idx es (acc ++ [(e, recs)])
    | none => getIndexSubsetAux idx es acc

/-- Coordinator `getIndexSubset(emails)`. -/
def getIndexSubset (idx : EmailIndex) (emails : List Str) : EmailIndex :=
  getIndexSubsetAux idx emails []

/-- Coordinator `findDuplicatesInChunk`: prefilter the chunk's emails
through the Bloom filter, short-circuit to no results when no candidate
survives, otherwise run the worker's `findDuplicates` against the index
subset restricted to the candidate emails. -/
def findDuplicatesInChunk (bf : BloomFilter) (idx : EmailIndex) (chunk : List Row)
    (src : Str) (m : ColumnMapping) : List Duplicate :=
  let cands := candidateEmails bf chunk m
  if cands = [] then []
  else findDuplicates chunk (getIndexSubset idx cands) src m

/-- JS `email.split('@')`. -/
def splitOnAt : Str → List Str
  | [] => [[]]
  | c :: cs =>
    if c = 64 then [] :: splitOnAt cs
    else
      match splitOnAt cs with
      | s :: ss => (c :: s) :: ss
      | [] => [[c]]

/-- Domain extraction of the Phase-3 filter: `parts = email.split('@');
parts.length > 1 ? parts[1] : ''`. -/
def emailDomain (e : Str) : Str :=
  match splitOnAt e with
  | _ :: d :: _ => d
  | _ => []

/-- Predicate "the key's domain is in the filtered domain set": the key
splits at `'@'` into a non-empty domain part whose lowercase form is in
the normalized domain list (a key without an `'@'` has no domain). -/
def hasFilteredDomain (doms : List Str) (e : Str) : Prop :=
  emailDomain e ≠ [] ∧ jsToLower (emailDomain e) ∈ doms

instance (doms : List Str) (e : Str) : Decidable (hasFilteredDomain doms e) := by
  unfold hasFilteredDomain
  infer_instance

/-- Per-row step 2 of `filterModifiedBasisFile`: clear the email cell of
a row whose normalized email has a domain in the filter set, keep the
row otherwise (and always keep the row itself). -/
def phase3RowStep (doms : List Str) (col : Str) (row : Row) : Row :=
  let e := normalizeEmail (getField row col)
  if ¬ e = [] ∧ hasFilteredDomain doms e then setField row col [] else row

/-- Normalized non-empty emails of a list of rows, in row order — the
emails the Phase-3 rebuild adds to the index and the Bloom filter. -/
def validEmails (rows : List Row) (col : Str) : List Str :=
  (rows.map (fun row => normalizeEmail (getField row col))).filter (fun e => ¬ e = [])

/-- Coordinator state relevant to the phase transitions: the re-derived
basis content, the key index, the Bloom prefilter, the accumulated
results, the basis file name and the active column mapping.  (Counters,
the LRU cache and the classifier maps are observational and carry no
invariant claimed here.) -/
structure DetectorState where
  basisData : List Row
  emailIndex : EmailIndex
  bloom : BloomFilter
  allDuplicates : List Duplicate
  basisFileName : Str
  mapping : ColumnMapping

/-- Phase-1 reset (`processFiles` when `currentPhase === 'phase1'`):
results, index and classifier maps are cleared and the Bloom filter is
replaced by a freshly constructed one (its dimensions come from the
float constructor formulas and are abstracted as parameters). -/
def phase1Reset (st : DetectorState) (size hashCount : Nat) : DetectorState :=
  { st with emailIndex := [], bloom := mkBloomFilter size hashCount, allDuplicates := [] }

/-- Phase-3 `filterModifiedBasisFile(normalizedDomains)`: clear matching
email cells row by row (rows retained), rebuild the index from the rows
with a surviving non-empty key (adding each such key to the existing
Bloom filter — the code never clears it), and drop every accumulated
duplicate whose email is no longer a key of the rebuilt index. -/
def filterModifiedBasisFile (st : DetectorState) (doms : List Str) : DetectorState :=
  let col := st.mapping.emailColumn
  let rows := st.basisData.map (phase3RowStep doms col)
  let idx := buildEmailIndex rows st.basisFileName st.mapping
  let bf := bloomAddAll st.bloom (validEmails rows col)
  let dups := st.allDuplicates.filter (fun d => (idxLookup idx d.email).isSome)
  { st with basisData := rows, emailIndex := idx, bloom := bf, allDuplicates := dups }

/-- Worker-pool state: the busy flag of each pool slot (handles are
identified by position) and the FIFO queue of pending acquisition
requests, identified by a request id. -/
structure PoolState where
  workers : List Bool
  queue : List Nat
deriving DecidableEq

/-- Outcome of one `getWorker()` call: the promise either resolves at
once with a worker slot, or stays pending with the request queued. -/
inductive AcquireResult where
  | resolved (slot : Nat)
  | pending
deriving DecidableEq

/-- `getWorker()`: hand out the first idle worker, marking it busy;
otherwise push the request on the queue and leave the promise pending. -/
def poolGetWorker (st : PoolState) (reqId : Nat) : PoolState × AcquireResult :=
  match st.workers.findIdx? (fun b => b = false) with
  | some i => ({ st with workers := st.workers.set i true }, AcquireResult.resolved i)
  | none => ({ st with queue := st.queue ++ [reqId] }, AcquireResult.pending)

/-- `terminate()`: stop and drop all workers, reject every queued
request with the pool-closed error, empty the queue.  The returned list
is the requests rejected by this call. -/
def poolTerminate (st : PoolState) : PoolState × List Nat :=
  (⟨[], []⟩, st.queue)

theorem idxLookup_append_single (acc : EmailIndex) (k : Str) (v : List Rec) (x : Str) :
    idxLookup (acc ++ [(k, v)]) x =
      match idxLookup acc x with
      | some r => some r
      | none => if k = x then some v else none := by
  induction acc with
  | nil => simp [idxLookup]
  | cons p rest ih =>
    obtain ⟨pk, pv⟩ := p
    rw [List.cons_append, idxLookup, idxLookup]
    by_cases h : pk = x
    · rw [if_pos h, if_pos h]
    · rw [if_neg h, if_neg h, ih]

theorem getIndexSubsetAux_lookup (idx : EmailIndex) :
    ∀ (emails : List Str) (acc : EmailIndex),
      (∀ x, (idxLookup acc x).isSome → idxLookup acc x = idxLookup idx x) →
      ∀ e, idxLookup (getIndexSubsetAux idx emails acc) e =
        if (idxLookup acc e).isSome ∨ e ∈ emails then idxLookup idx e else none := by
  intro emails
  induction emails with
  | nil =>
    intro acc hacc e
    rw [getIndexSubsetAux]
    by_cases h : (idxLookup acc e).isSome
    · rw [if_pos (Or.inl h)]
      exact hacc e h
    · rw [if_neg (by simp [h])]
      exact Option.not_isSome_iff_eq_none.1 h
  | cons e' es ih =>
    intro acc hacc e
    rw [getIndexSubsetAux]
    cases hidx : idxLookup idx e' with
    | none =>
      rw [ih acc hacc e]
      by_cases hmem : (idxLookup acc e).isSome ∨ e ∈ es
      · rw [if_pos hmem, if_pos (by rcases hmem with h | h; exact Or.inl h; exact Or.inr (List.mem_cons_of_mem _ h))]
      · push_neg at hmem
        rw [if_neg (by simp [hmem.1, hmem.2])]
        by_cases he : e = e'
        · rw [if_pos (Or.inr (by rw [he]; exact List.mem_cons_self _ _)), he, hidx]
        · rw [if_neg (by simp [hmem.1, hmem.2, he])]
    | some recs =>
      dsimp only
      by_cases hacc' : (idxLookup acc e').isSome
      · rw [if_pos hacc', ih acc hacc e]
        by_cases hmem : (idxLookup acc e).isSome ∨ e ∈ es
        · rw [if_pos hmem, if_pos (by rcases hmem with h | h; exact Or.inl h; exact Or.inr (List.mem_cons_of_mem _ h))]
        · push_neg at hmem
          by_cases he : e = e'
          · exact absurd (he ▸ hacc') hmem.1
          · rw [if_neg (by simp [hmem.1, hmem.2]), if_neg (by simp [hmem.1, hmem.2, he])]
      · rw [if_neg hacc']
        have hacc2 : ∀ x, (idxLookup (acc ++ [(e', recs)]) x).isSome →
            idxLookup (acc ++ [(e', recs)]) x = idxLookup idx x := by
          intro x hx
          rw [idxLookup_append_single] at hx ⊢
          cases hav : idxLookup acc x with
          | some r =>
            have h2 := hacc x (by rw [hav]; rfl)
            rw [hav] at h2
            exact h2
          | none =>
            rw [hav] at hx
            dsimp only at hx ⊢
            by_cases he' : e' = x
            · rw [if_pos he'] at hx ⊢
              rw [← he', hidx]
            · rw [if_neg he'] at hx
              exact absurd hx (by decide)
        rw [ih _ hacc2 e]
        have happ : (idxLookup (acc ++ [(e', recs)]) e).isSome ↔
            (idxLookup acc e).isSome ∨ e = e' := by
          rw [idxLookup_append_single]
          cases hav : idxLookup acc e with
          | some r => simp
          | none =>
            dsimp only
            by_cases he' : e' = e
            · simp [he']
            · rw [if_neg he']
              simp only [Option.isSome_none, Bool.false_eq_true, false_iff, false_or]
              exact fun h => he' h.symm
        by_cases hmem : (idxLookup acc e).isSome ∨ e = e' ∨ e ∈ es
        · rw [if_pos (by
            rcases hmem with h | h | h
            · exact Or.inl (happ.2 (Or.inl h))
            · exact Or.inl (happ.2 (Or.inr h))
            · exact Or.inr h)]
          rw [if_pos (by
            rcases hmem with h | h | h
            · exact Or.inl h
            · exact Or.inr (by rw [h]; exact List.mem_cons_self _ _)
            · exact Or.inr (List.mem_cons_of_mem _ h))]
        · push_neg at hmem
          rw [if_neg (by
            intro hcon
            rcases hcon with h | h
            · rcases happ.1 h with h' | h'
              · exact absurd h' (by simp [hmem.1])
              · exact hmem.2.1 h'
            · exact hmem.2.2 h)]
          rw [if_neg (by simp [hmem.1, hmem.2.1, hmem.2.2])]

theorem getIndexSubset_lookup (idx : EmailIndex) (emails : List Str) (e : Str) :
    idxLookup (getIndexSubset idx emails) e =
      if e ∈ emails then idxLookup idx e else none := by
  rw [getIndexSubset, getIndexSubsetAux_lookup idx emails []
    (fun x hx => by simp [idxLookup] at hx) e]
  simp [idxLookup]

theorem mem_candidateEmails {bf : BloomFilter} {chunk : List Row} {m : ColumnMapping}
    {row : Row} (hrow : row ∈ chunk)
    (hne : normalizeEmail (getField row m.emailColumn) ≠ [])
    (htest : bf.test (normalizeEmail (getField row m.emailColumn)) = true) :
    normalizeEmail (getField row m.emailColumn) ∈ candidateEmails bf chunk m := by
  unfold candidateEmails
  rw [List.mem_filter]
  constructor
  · exact List.mem_map.2 ⟨row, hrow, rfl⟩
  · simp [hne, htest]

theorem findDuplicatesAux_congr {idx1 idx2 : EmailIndex} {src : Str} {m : ColumnMapping} :
    ∀ (rows : List Row) (i : Nat),
      (∀ row ∈ rows, normalizeEmail (getField row m.emailColumn) ≠ [] →
        idxLookup idx1 (normalizeEmail (getField row m.emailColumn)) =
          idxLookup idx2 (normalizeEmail (getField row m.emailColumn))) →
      findDuplicatesAux idx1 src m rows i = findDuplicatesAux idx2 src m rows i := by
  intro rows
  induction rows with
  | nil => intro i _; rfl
  | cons row rest ih =>
    intro i hagree
    rw [findDuplicatesAux, findDuplicatesAux]
    dsimp only
    have hrest := ih (i + 1) (fun r hr => hagree r (List.mem_cons_of_mem _ hr))
    by_cases he : normalizeEmail (getField row m.emailColumn) = []
    · rw [if_pos he, if_pos he, hrest]
    · rw [if_neg he, if_neg he,
        hagree row (List.mem_cons_self _ _) he, hrest]

theorem findDuplicatesAux_nil_of_miss {idx : EmailIndex} {src : Str} {m : ColumnMapping} :
    ∀ (rows : List Row) (i : Nat),
      (∀ row ∈ rows, normalizeEmail (getField row m.emailColumn) = [] ∨
        idxLookup idx (normalizeEmail (getField row m.emailColumn)) = none) →
      findDuplicatesAux idx src m rows i = [] := by
  intro rows
  induction rows with
  | nil => intro i _; rfl
  | cons row rest ih =>
    intro i hmiss
    rw [findDuplicatesAux]
    dsimp only
    have hrest := ih (i + 1) (fun r hr => hmiss r (List.mem_cons_of_mem _ hr))
    rcases hmiss row (List.mem_cons_self _ _) with h | h
    · rw [if_pos h, hrest]
    · by_cases he : normalizeEmail (getField row m.emailColumn) = []
      · rw [if_pos he, hrest]
      · rw [if_neg he, h, hrest]

theorem mergeChunkIndex_cons (main : EmailIndex) (bf : BloomFilter) (e : Str)
    (recs : List Rec) (rest : EmailIndex) :
    mergeChunkIndex main bf ((e, recs) :: rest) =
      mergeChunkIndex (idxInsertMany main e recs) (bf.add e) rest := rfl

theorem mergeChunkIndex_snd (chunkIdx : EmailIndex) :
    ∀ (main : EmailIndex) (bf : BloomFilter),
      (mergeChunkIndex main bf chunkIdx).2 = bloomAddAll bf (idxKeys chunkIdx) := by
  induction chunkIdx with
  | nil => intro main bf; rfl
  | cons p rest ih =>
    intro main bf
    obtain ⟨e, recs⟩ := p
    rw [mergeChunkIndex_cons, ih]
    rfl

theorem idxKeys_idxInsertMany {idx : EmailIndex} {k e : Str} {rs : List Rec}
    (h : k ∈ idxKeys (idxInsertMany idx e rs)) : k ∈ idxKeys idx ∨ k = e := by
  induction idx with
  | nil =>
    simp [idxInsertMany, idxKeys] at h
    exact Or.inr h
  | cons p rest ih =>
    obtain ⟨pk, precs⟩ := p
    rw [idxInsertMany] at h
    split at h
    · rename_i heq
      simp only [idxKeys, List.map_cons, List.mem_cons] at h ⊢
      rcases h with h | h
      · exact Or.inl (Or.inl (heq ▸ h))
      · exact Or.inl (Or.inr h)
    · simp only [idxKeys, List.map_cons, List.mem_cons] at h ⊢
      rcases h with h | h
      · exact Or.inl (Or.inl h)
      · rcases ih h with h' | h'
        · exact Or.inl (Or.inr h')
        · exact Or.inr h'

theorem idxKeys_mergeChunkIndex (chunkIdx : EmailIndex) :
    ∀ (main : EmailIndex) (bf : BloomFilter) (k : Str),
      k ∈ idxKeys (mergeChunkIndex main bf chunkIdx).1 →
      k ∈ idxKeys main ∨ k ∈ idxKeys chunkIdx := by
  induction chunkIdx with
  | nil => intro main bf k h; exact Or.inl h
  | cons p rest ih =>
    intro main bf k h
    obtain ⟨e, recs⟩ := p
    rw [mergeChunkIndex_cons] at h
    rcases ih _ _ k h with h' | h'
    · rcases idxKeys_idxInsertMany h' with h'' | h''
      · exact Or.inl h''
      · exact Or.inr (by rw [h'']; simp [idxKeys])
    · exact Or.inr (by simp only [idxKeys, List.map_cons, List.mem_cons]; exact Or.inr h')

theorem getField_setField (row : Row) (col v : Str) :
    getField (setField row col v) col = v := by
  induction row with
  | nil => simp [setField, getField]
  | cons p rest ih =>
    obtain ⟨k, x⟩ := p
    rw [setField]
    by_cases h : k = col
    · rw [if_pos h, getField, if_pos rfl]
    · rw [if_neg h, getField, if_neg h, ih]

theorem hasFilteredDomain_ne_nil {doms : List Str} {e : Str}
    (h : hasFilteredDomain doms e) : e ≠ [] := by
  intro he
  rw [he] at h
  exact h.1 rfl

theorem phase3RowStep_of_filtered {doms : List Str} {col : Str} {row : Row}
    (h : hasFilteredDomain doms (normalizeEmail (getField row col))) :
    phase3RowStep doms col row = setField row col [] := by
  unfold phase3RowStep
  rw [if_pos ⟨hasFilteredDomain_ne_nil h, h⟩]

theorem phase3RowStep_of_not_filtered {doms : List Str} {col : Str} {row : Row}
    (h : ¬ (¬ normalizeEmail (getField row col) = [] ∧
        hasFilteredDomain doms (normalizeEmail (getField row col)))) :
    phase3RowStep doms col row = row := by
  unfold phase3RowStep
  rw [if_neg h]

theorem phase3_key_not_filtered (st : DetectorState) (doms : List Str) (k : Str)
    (h : k ∈ idxKeys (filterModifiedBasisFile st doms).emailIndex) :
    ¬ hasFilteredDomain doms k := by
  obtain ⟨hne, row', hmem, hk⟩ := idxKeys_buildEmailIndex h
  obtain ⟨row, hrow, hstep⟩ := List.mem_map.1 hmem
  by_cases hcond : ¬ normalizeEmail (getField row st.mapping.emailColumn) = [] ∧
      hasFilteredDomain doms (normalizeEmail (getField row st.mapping.emailColumn))
  · exfalso
    apply hne
    rw [hk, ← hstep, phase3RowStep_of_filtered hcond.2, getField_setField]
    rfl
  · rw [phase3RowStep_of_not_filtered hcond] at hstep
    rw [← hstep] at hk
    push_neg at hcond
    intro hfilt
    have hne' : ¬ normalizeEmail (getField row st.mapping.emailColumn) = [] := by
      rw [← hk]; exact hne
    exact (hcond hne') (hk ▸ hfilt)

theorem idxKeys_build_mem_validEmails {rows : List Row} {src : Str} {m : ColumnMapping}
    {k : Str} (h : k ∈ idxKeys (buildEmailIndex rows src m)) :
    k ∈ validEmails rows m.emailColumn := by
  obtain ⟨hne, row, hmem, hk⟩ := idxKeys_buildEmailIndex h
  unfold validEmails
  rw [List.mem_filter]
  constructor
  · exact List.mem_map.2 ⟨row, hmem, hk.symm⟩
  · simp [hne]

theorem indexOfSpace_none_not_mem : ∀ {s : Str}, indexOfSpace s = none → 32 ∉ s := by
  intro s
  induction s with
  | nil => intro _ h; simp at h
  | cons c cs ih =>
    intro h hmem
    rw [indexOfSpace] at h
    by_cases hc : c = 32
    · rw [if_pos hc] at h; simp at h
    · rw [if_neg hc] at h
      rcases List.mem_cons.1 hmem with h' | h'
      · exact hc h'.symm
      · cases hio : indexOfSpace cs with
        | none => exact ih hio h'
        | some j => rw [hio] at h; simp at h

theorem indexOfSpace_isSome_of_mem : ∀ {s : Str}, 32 ∈ s → (indexOfSpace s).isSome := by
  intro s hmem
  cases h : indexOfSpace s with
  | none => exact absurd hmem (indexOfSpace_none_not_mem h)
  | some j => rfl

theorem indexOfSpace_some_zero : ∀ {s : Str}, indexOfSpace s = some 0 → ∃ t, s = 32 :: t := by
  intro s h
  cases s with
  | nil => simp [indexOfSpace] at h
  | cons c cs =>
    rw [indexOfSpace] at h
    by_cases hc : c = 32
    · exact ⟨cs, by rw [hc]⟩
    · rw [if_neg hc] at h
      cases hio : indexOfSpace cs with
      | none => rw [hio] at h; simp at h
      | some j => rw [hio] at h; simp at h

theorem indexOfSpace_spec : ∀ {s : Str} {j : Nat}, indexOfSpace s = some j →
    s.take j ++ 32 :: s.drop (j + 1) = s ∧ 32 ∉ s.take j := by
  intro s
  induction s with
  | nil => intro j h; simp [indexOfSpace] at h
  | cons c cs ih =>
    intro j h
    rw [indexOfSpace] at h
    by_cases hc : c = 32
    · rw [if_pos hc] at h
      cases h
      subst hc
      exact ⟨rfl, List.not_mem_nil 32⟩
    · rw [if_neg hc] at h
      cases hio : indexOfSpace cs with
      | none => rw [hio] at h; simp at h
      | some j' =>
        rw [hio] at h
        rw [Option.map_some'] at h
        cases h
        obtain ⟨heq, hnm⟩ := ih hio
        constructor
        · rw [List.take_succ_cons, List.drop_succ_cons, List.cons_append, heq]
        · intro hmem
          rcases List.mem_cons.1 hmem with h' | h'
          · exact hc h'.symm
          · exact hnm h'

/-- Basis record of Scenario A/B: key "a@x.com", names Jon / Doe. -/
def recJonDoe : Rec :=
  ⟨strLit "a@x.com", strLit "Jon", strLit "Doe", strLit "basis.csv", 0,
    [(strLit "email", strLit "a@x.com")]⟩

/-- Basis record for the Scenario-B comparison: names Jon / Doey. -/
def recJonDoey : Rec :=
  ⟨strLit "a@x.com", strLit "Jon", strLit "Doey", strLit "basis.csv", 0,
    [(strLit "email", strLit "a@x.com")]⟩

theorem simJonJon : calculateSimilarity (strLit "Jon") (strLit "Jon") = 1 := by decide

theorem simDoeDoe : calculateSimilarity (strLit "Doe") (strLit "Doe") = 1 := by decide

theorem simDoeDoey : calculateSimilarity (strLit "Doe") (strLit "Doey") = 3/4 := by
  unfold calculateSimilarity
  rw [if_neg (by decide)]
  dsimp only
  rw [if_neg (by decide), if_neg (by decide), if_neg (by decide)]
  rw [show matchCount (jsTrim (jsToLower (strLit "Doe"))) (jsTrim (jsToLower (strLit "Doey"))) = 3
    from by decide]
  rw [show (jsTrim (jsToLower (strLit "Doe"))).length = 3 from by decide]
  rw [show (jsTrim (jsToLower (strLit "Doey"))).length = 4 from by decide]
  norm_num [max_def]

theorem confJonDoe_eq_one : confWith (strLit "Jon") (strLit "Doe") recJonDoe = 1 := by
  unfold confWith recJonDoe
  dsimp only
  rw [simJonJon, simDoeDoe]
  norm_num

theorem confJonDoey_eq : confWith (strLit "Jon") (strLit "Doe") recJonDoey = 11/12 := by
  unfold confWith recJonDoey
  dsimp only
  rw [simJonJon, simDoeDoey]
  norm_num

theorem ffmScenB : findFirstMatch (strLit "comp.csv") (strLit "Jon") (strLit "Doe")
    [recJonDoey] = some recJonDoey := by
  rw [findFirstMatch]
  rw [if_neg (by decide)]
  rw [if_pos (by rw [confJonDoey_eq]; norm_num)]

/-- C1: for every comparison row and candidate record, the matcher's
confidence is `(1 + firstNameSimilarity + lastNameSimilarity) / 3`; it
always lies in [0, 1]; it equals 1 only when both name pairs are
identical after case-insensitive trimming (the keys match by
construction: every candidate stored under an index key carries that
key, last conjunct); and within the candidate scan a duplicate is
emitted exactly on the threshold test `confidence ≥ 0.70`: an accepted
candidate reaches it, and when no result is emitted every
different-source candidate is below it. -/
theorem c1_confidence_formula :
    ∀ (f l : Str) (c : Rec),
      (0 ≤ confWith f l c ∧ confWith f l c ≤ 1) ∧
      (confWith f l c = 1 →
        jsTrim (jsToLower f) = jsTrim (jsToLower c.firstName) ∧
        jsTrim (jsToLower l) = jsTrim (jsToLower c.lastName)) ∧
      (∀ (src : Str) (cands : List Rec) (d : Rec),
        findFirstMatch src f l cands = some d → 7/10 ≤ confWith f l d) ∧
      (∀ (src : Str) (cands : List Rec),
        findFirstMatch src f l cands = none →
          ∀ d ∈ cands, d.sourceFile ≠ src → confWith f l d < 7/10) ∧
      (∀ (chunk : List Row) (src : Str) (m : ColumnMapping) (k : Str) (recs : List Rec),
        idxLookup (buildEmailIndex chunk src m) k = some recs →
          ∀ r ∈ recs, r.email = k) := by
  intro f l c
  refine ⟨⟨confWith_nonneg f l c, confWith_le_one f l c⟩, ?_, ?_, ?_, ?_⟩
  · intro h1
    obtain ⟨hf, hl⟩ := (confWith_eq_one_iff f l c).1 h1
    exact ⟨((calculateSimilarity_eq_one_iff _ _).1 hf).2.2,
      ((calculateSimilarity_eq_one_iff _ _).1 hl).2.2⟩
  · intro src cands d hd
    exact (findFirstMatch_some hd).2.2
  · intro src cands h
    exact findFirstMatch_none h
  · intro chunk src m k recs hlk r hr
    exact idxWF_buildEmailIndex chunk src m k recs hlk r hr

/-- C1 witness: at the Scenario-A inputs the confidence is 1 and the
theorem yields the identical-names conclusion. -/
theorem c1_confidence_formula_witness :
    jsTrim (jsToLower (strLit "Jon")) = jsTrim (jsToLower recJonDoe.firstName) ∧
    jsTrim (jsToLower (strLit "Doe")) = jsTrim (jsToLower recJonDoe.lastName) :=
  (c1_confidence_formula (strLit "Jon") (strLit "Doe") recJonDoe).2.1 confJonDoe_eq_one

/-- C2: the matcher's similarity coincides everywhere with the spec's
positional-character-match definition, and on Scenario B:
"Doe"/"Doey" scores 3/4, the confidence is (1+1+3/4)/3 = 11/12 ≈ 0.917,
and the candidate is accepted. -/
theorem c2_similarity_positional_spec :
    (∀ s1 s2 : Str, calculateSimilarity s1 s2 = specSimilarity s1 s2) ∧
    calculateSimilarity (strLit "Doe") (strLit "Doey") = 3/4 ∧
    confWith (strLit "Jon") (strLit "Doe") recJonDoey = 11/12 ∧
    (7/10 : ℚ) ≤ 11/12 ∧
    findFirstMatch (strLit "comp.csv") (strLit "Jon") (strLit "Doe") [recJonDoey] =
      some recJonDoey :=
  ⟨calculateSimilarity_eq_spec, simDoeDoey, confJonDoey_eq, by norm_num, ffmScenB⟩

/-- C3: the candidate scan is exactly "first match, in index insertion
order": it equals `List.find?` of the acceptance predicate; an emitted
candidate is from a different source and reaches the threshold; every
row contributes at most one duplicate result; and index insertion
appends at the end of a key's record list, so candidate order is
insertion order. -/
theorem c3_first_match_per_row :
    ∀ (src f l : Str) (cands : List Rec),
      (findFirstMatch src f l cands =
        cands.find? (fun c => decide (c.sourceFile ≠ src ∧ 7/10 ≤ confWith f l c))) ∧
      (∀ c, findFirstMatch src f l cands = some c →
        c ∈ cands ∧ c.sourceFile ≠ src ∧ 7/10 ≤ confWith f l c) ∧
      (∀ (idx : EmailIndex) (chunk : List Row) (m : ColumnMapping) (j : Nat),
        ((findDuplicates chunk idx src m).filter (fun d => d.rowIndex = j)).length ≤ 1) ∧
      (∀ (idx : EmailIndex) (e : Str) (r : Rec),
        idxLookup (idxInsert idx e r) e = some ((idxLookup idx e).getD [] ++ [r])) := by
  intro src f l cands
  refine ⟨findFirstMatch_eq_find? src f l cands, ?_, ?_, ?_⟩
  · intro c hc
    exact findFirstMatch_some hc
  · intro idx chunk m j
    exact findDuplicatesAux_countP_le_one chunk 0 j
  · intro idx e r
    rw [idxLookup_idxInsert, if_pos rfl]

/-- C3 witness: the Scenario-B scan accepts its (different-source,
above-threshold) candidate. -/
theorem c3_first_match_per_row_witness :
    recJonDoey ∈ [recJonDoey] ∧ recJonDoey.sourceFile ≠ strLit "comp.csv" ∧
      7/10 ≤ confWith (strLit "Jon") (strLit "Doe") recJonDoey :=
  (c3_first_match_per_row (strLit "comp.csv") (strLit "Jon") (strLit "Doe")
    [recJonDoey]).2.1 recJonDoey ffmScenB

/-- C4: after Phase-3 filtering with domain set D: row count unchanged
and rows transformed pointwise; every row whose key's domain is in D
has its key cell cleared (the row itself kept); no key of the rebuilt
index has a domain in D; every surviving duplicate's key exists in the
rebuilt index; and duplicates whose key survived are kept. -/
theorem c4_phase3_consistency :
    ∀ (st : DetectorState) (doms : List Str),
      ((filterModifiedBasisFile st doms).basisData.length = st.basisData.length) ∧
      ((filterModifiedBasisFile st doms).basisData =
        st.basisData.map (phase3RowStep doms st.mapping.emailColumn)) ∧
      (∀ row : Row,
        hasFilteredDomain doms (normalizeEmail (getField row st.mapping.emailColumn)) →
          phase3RowStep doms st.mapping.emailColumn row =
            setField row st.mapping.emailColumn [] ∧
          getField (phase3RowStep doms st.mapping.emailColumn row)
            st.mapping.emailColumn = []) ∧
      (∀ k recs, idxLookup (filterModifiedBasisFile st doms).emailIndex k = some recs →
        ¬ hasFilteredDomain doms k) ∧
      (∀ d ∈ (filterModifiedBasisFile st doms).allDuplicates,
        (idxLookup (filterModifiedBasisFile st doms).emailIndex d.email).isSome) ∧
      (∀ d ∈ st.allDuplicates,
        (idxLookup (filterModifiedBasisFile st doms).emailIndex d.email).isSome →
          d ∈ (filterModifiedBasisFile st doms).allDuplicates) := by
  intro st doms
  refine ⟨by simp [filterModifiedBasisFile], rfl, ?_, ?_, ?_, ?_⟩
  · intro row hrow
    refine ⟨phase3RowStep_of_filtered hrow, ?_⟩
    rw [phase3RowStep_of_filtered hrow, getField_setField]
  · intro k recs hlk
    apply phase3_key_not_filtered st doms k
    exact (idxLookup_isSome_iff_mem_keys _ _).1 (by rw [hlk]; rfl)
  · intro d hd
    have := List.of_mem_filter hd
    simpa using this
  · intro d hd hsome
    apply List.mem_filter.2
    exact ⟨hd, by simpa using hsome⟩

/-- Concrete detector state used to instantiate the phase-transition
theorems: two basis rows with keys a@y.com and b@x.com. -/
def st0 : DetectorState :=
  { basisData := [[(strLit "email", strLit "a@y.com")], [(strLit "email", strLit "b@x.com")]],
    emailIndex := [],
    bloom := mkBloomFilter 101 2,
    allDuplicates := [],
    basisFileName := strLit "basis.csv",
    mapping := ⟨strLit "email", strLit "firstname", strLit "lastname", false, none⟩ }

/-- C4 witness: filtering domain x.com from `st0` leaves the key
a@y.com in the rebuilt index, and the theorem certifies its domain is
not in the filter set. -/
theorem c4_phase3_consistency_witness :
    ¬ hasFilteredDomain [strLit "x.com"] (strLit "a@y.com") :=
  (c4_phase3_consistency st0 [strLit "x.com"]).2.2.2.1 (strLit "a@y.com")
    [⟨strLit "a@y.com", [], [], strLit "basis.csv", 0,
      [(strLit "email", strLit "a@y.com")]⟩] (by decide)

/-- C5: a Bloom prefilter (any positive bit-array size, as produced by
the constructor for every expected count n ≥ 1 and rate 0 < p < 1)
never produces a false negative: after any sequence of adds with no
intervening clear, `test` is true for every added item. -/
theorem c5_prefilter_no_false_negatives :
    ∀ (bf : BloomFilter) (items : List Str) (x : Str),
      0 < bf.size → x ∈ items → (bloomAddAll bf items).test x = true := by
  intro bf items x _ hx
  exact bloom_test_addAll_mem hx

/-- C5 witness: a concrete filter sized 101 with 2 hashes tests true on
its added item. -/
theorem c5_prefilter_no_false_negatives_witness :
    0 < (mkBloomFilter 101 2).size ∧
      (bloomAddAll (mkBloomFilter 101 2) [strLit "a@x.com"]).test (strLit "a@x.com") = true :=
  ⟨by decide, c5_prefilter_no_false_negatives (mkBloomFilter 101 2) [strLit "a@x.com"]
    (strLit "a@x.com") (by decide) (by decide)⟩

/-- Concrete detector state for the Phase-3 prefilter counterexample:
the single basis key a@x.com is indexed and present in the Bloom
filter. -/
def st6 : DetectorState :=
  { basisData := [[(strLit "email", strLit "a@x.com")]],
    emailIndex := [(strLit "a@x.com",
      [⟨strLit "a@x.com", [], [], strLit "basis.csv", 0,
        [(strLit "email", strLit "a@x.com")]⟩])],
    bloom := bloomAddAll (mkBloomFilter 101 2) [strLit "a@x.com"],
    allDuplicates := [],
    basisFileName := strLit "basis.csv",
    mapping := ⟨strLit "email", strLit "firstname", strLit "lastname", false, none⟩ }

/-- C6 counterexample: filtering domain x.com from `st6` clears the
only key, so the rebuilt index is empty — yet the prefilter after the
rebuild still has its old bits set and still tests true for the removed
key a@x.com, while a prefilter actually cleared and rebuilt from
scratch (same dimensions, bits from the rebuilt — here empty — key set)
tests false.  The Phase-3 rebuild never clears the Bloom filter, so its
contents do not reflect only keys added to the rebuilt index. -/
theorem c6_counterexample :
    idxKeys (filterModifiedBasisFile st6 [strLit "x.com"]).emailIndex = [] ∧
    (filterModifiedBasisFile st6 [strLit "x.com"]).bloom.bits ≠ ∅ ∧
    (filterModifiedBasisFile st6 [strLit "x.com"]).bloom.test (strLit "a@x.com") = true ∧
    (mkBloomFilter (filterModifiedBasisFile st6 [strLit "x.com"]).bloom.size
      (filterModifiedBasisFile st6 [strLit "x.com"]).bloom.hashCount).test
        (strLit "a@x.com") = false := by
  refine ⟨by decide, by decide, by decide, by decide⟩

/-- C6 amended: at a Phase-1 run start the index, results and prefilter
are reset (the prefilter is replaced by a fresh all-zero filter); during
the Phase-3 rebuild the index is rebuilt and every key of the rebuilt
index passes the prefilter test, but the prefilter is NOT cleared —
its dimensions are kept and its bit set only grows, so bits of keys
that existed only before the rebuild are retained. -/
theorem c6_amended_prefilter_reset :
    ∀ (st : DetectorState) (doms : List Str) (size hashCount : Nat),
      ((phase1Reset st size hashCount).bloom = mkBloomFilter size hashCount ∧
       (phase1Reset st size hashCount).bloom.bits = ∅ ∧
       (phase1Reset st size hashCount).emailIndex = [] ∧
       (phase1Reset st size hashCount).allDuplicates = []) ∧
      (st.bloom.bits ⊆ (filterModifiedBasisFile st doms).bloom.bits) ∧
      ((filterModifiedBasisFile st doms).bloom.size = st.bloom.size) ∧
      ((filterModifiedBasisFile st doms).bloom.hashCount = st.bloom.hashCount) ∧
      (∀ k recs, idxLookup (filterModifiedBasisFile st doms).emailIndex k = some recs →
        (filterModifiedBasisFile st doms).bloom.test k = true) := by
  intro st doms size hashCount
  refine ⟨⟨rfl, rfl, rfl, rfl⟩, ?_, ?_, ?_, ?_⟩
  · exact bloomAddAll_bits_subset st.bloom _
  · exact bloomAddAll_size st.bloom _
  · exact bloomAddAll_hashCount st.bloom _
  · intro k recs hlk
    have hmem : k ∈ idxKeys (filterModifiedBasisFile st doms).emailIndex :=
      (idxLookup_isSome_iff_mem_keys _ _).1 (by rw [hlk]; rfl)
    have hval : k ∈ validEmails
        (st.basisData.map (phase3RowStep doms st.mapping.emailColumn))
        st.mapping.emailColumn := idxKeys_build_mem_validEmails hmem
    exact bloom_test_addAll_mem hval

/-- C6 amended witness: the key a@y.com survives the concrete Phase-3
filter of `st0` and passes the rebuilt prefilter's test. -/
theorem c6_amended_prefilter_reset_witness :
    (filterModifiedBasisFile st0 [strLit "x.com"]).bloom.test (strLit "a@y.com") = true :=
  (c6_amended_prefilter_reset st0 [strLit "x.com"] 101 2).2.2.2.2 (strLit "a@y.com")
    [⟨strLit "a@y.com", [], [], strLit "basis.csv", 0,
      [(strLit "email", strLit "a@y.com")]⟩] (by decide)

/-- C7: with a mapping configured to split a combined name field
(`splitNameColumn` set and both name columns the same), the names come
from splitting the field's trimmed value at its first space — the text
before the first space is `firstName`, the remainder after it is
`lastName` (so the trimmed value is `firstName ++ ' ' ++ lastName` and
`firstName` holds no space), and a value without a space becomes the
whole `firstName` with an empty `lastName`. -/
theorem c7_split_combined_name :
    ∀ (m : ColumnMapping) (row : Row),
      m.splitNameColumn = true → m.firstNameColumn = m.lastNameColumn →
      (deriveNames row m = splitFullName (jsTrim (getField row m.firstNameColumn))) ∧
      (32 ∉ jsTrim (getField row m.firstNameColumn) →
        deriveNames row m = (jsTrim (getField row m.firstNameColumn), [])) ∧
      (32 ∈ jsTrim (getField row m.firstNameColumn) →
        jsTrim (getField row m.firstNameColumn) =
          (deriveNames row m).1 ++ 32 :: (deriveNames row m).2 ∧
        32 ∉ (deriveNames row m).1) := by
  intro m row hsplit hcols
  have hder : deriveNames row m = splitFullName (jsTrim (getField row m.firstNameColumn)) := by
    unfold deriveNames
    rw [if_pos ⟨hsplit, hcols⟩]
  refine ⟨hder, ?_, ?_⟩
  · intro hnm
    rw [hder]
    cases hio : indexOfSpace (jsTrim (getField row m.firstNameColumn)) with
    | some j =>
      obtain ⟨heq, _⟩ := indexOfSpace_spec hio
      exact absurd (heq ▸ List.mem_append.2 (Or.inr (List.mem_cons_self _ _))) hnm
    | none => rw [splitFullName, hio]
  · intro hmem
    have hsome := indexOfSpace_isSome_of_mem hmem
    cases hio : indexOfSpace (jsTrim (getField row m.firstNameColumn)) with
    | none => rw [hio] at hsome; simp at hsome
    | some j =>
      have hj : 0 < j := by
        rcases Nat.eq_zero_or_pos j with hz | hp
        · exfalso
          obtain ⟨t, ht⟩ := indexOfSpace_some_zero (hz ▸ hio)
          have := jsTrim_head_not_ws ht
          simp [jsIsWS, wsCodes] at this
        · exact hp
      obtain ⟨heq, hnm⟩ := indexOfSpace_spec hio
      rw [hder]
      rw [show splitFullName (jsTrim (getField row m.firstNameColumn)) =
        ((jsTrim (getField row m.firstNameColumn)).take j,
         (jsTrim (getField row m.firstNameColumn)).drop (j + 1)) from by
          rw [splitFullName, hio]
          dsimp only
          rw [if_pos hj]]
      exact ⟨heq.symm, hnm⟩

/-- Mapping and row for the combined-name split instance. -/
def mapCombined : ColumnMapping :=
  ⟨strLit "email", strLit "Name", strLit "Name", true, some (strLit "Groups")⟩

/-- Row with a combined name cell. -/
def rowCombined : Row := [(strLit "Name", strLit " John Smith ")]

/-- C7 witness: the combined cell " John Smith " trims to
"John Smith", which splits into a space-free first name and the
remainder. -/
theorem c7_split_combined_name_witness :
    jsTrim (getField rowCombined mapCombined.firstNameColumn) =
      (deriveNames rowCombined mapCombined).1 ++ 32 ::
        (deriveNames rowCombined mapCombined).2 ∧
    32 ∉ (deriveNames rowCombined mapCombined).1 :=
  (c7_split_combined_name mapCombined rowCombined rfl rfl).2.2 (by decide)

/-- C8: every key of an index built by `buildEmailIndex`, of the index
rebuilt by the Phase-3 filter, and of a merge of well-formed indexes,
is a non-empty normalized (lowercased and trimmed, i.e. fixed by
`normalizeEmail`) string — rows whose key normalizes to the empty
string are skipped. -/
theorem c8_index_keys_nonempty_normalized :
    ∀ (chunk : List Row) (src : Str) (m : ColumnMapping) (st : DetectorState)
      (doms : List Str) (main chunkIdx : EmailIndex) (bf : BloomFilter) (k : Str),
      (k ∈ idxKeys (buildEmailIndex chunk src m) → k ≠ [] ∧ normalizeEmail k = k) ∧
      (k ∈ idxKeys (filterModifiedBasisFile st doms).emailIndex →
        k ≠ [] ∧ normalizeEmail k = k) ∧
      ((∀ k' ∈ idxKeys main, k' ≠ [] ∧ normalizeEmail k' = k') →
       (∀ k' ∈ idxKeys chunkIdx, k' ≠ [] ∧ normalizeEmail k' = k') →
       k ∈ idxKeys (mergeChunkIndex main bf chunkIdx).1 →
         k ≠ [] ∧ normalizeEmail k = k) := by
  intro chunk src m st doms main chunkIdx bf k
  refine ⟨?_, ?_, ?_⟩
  · intro h
    obtain ⟨hne, row, _, hk⟩ := idxKeys_buildEmailIndex h
    exact ⟨hne, by rw [hk, normalizeEmail_idem]⟩
  · intro h
    obtain ⟨hne, row, _, hk⟩ := idxKeys_buildEmailIndex h
    exact ⟨hne, by rw [hk, normalizeEmail_idem]⟩
  · intro hmain hchunk h
    rcases idxKeys_mergeChunkIndex chunkIdx main bf k h with h' | h'
    · exact hmain k h'
    · exact hchunk k h'

/-- C8 witness: the key a@y.com of the concrete built index is
non-empty and fixed by normalization. -/
theorem c8_index_keys_nonempty_normalized_witness :
    strLit "a@y.com" ≠ [] ∧ normalizeEmail (strLit "a@y.com") = strLit "a@y.com" :=
  (c8_index_keys_nonempty_normalized st0.basisData (strLit "basis.csv") st0.mapping
    st0 [] [] [] (mkBloomFilter 101 2) (strLit "a@y.com")).1 (by decide)

/-- C9: evaluation of the worker-pool shutdown protocol.  `terminate()`
does reject every request queued at that moment and empties the pool
(first three conjuncts, and in general every queued request is
rejected), but an acquisition requested AFTER shutdown is not rejected:
with zero workers left it is pushed onto the queue and its promise
stays pending forever — no pool-closed rejection ever reaches it,
contradicting the claimed post-shutdown behaviour. -/
theorem c9_shutdown_evaluation :
    ((poolTerminate ⟨[false, false], [7, 8]⟩).2 = [7, 8] ∧
     (poolTerminate ⟨[false, false], [7, 8]⟩).1 = ⟨[], []⟩ ∧
     (poolGetWorker (poolTerminate ⟨[false, false], [7, 8]⟩).1 42).2 =
       AcquireResult.pending ∧
     (poolGetWorker (poolTerminate ⟨[false, false], [7, 8]⟩).1 42).1.queue = [42]) ∧
    (∀ (st : PoolState) (reqId : Nat),
      (poolTerminate st).2 = st.queue ∧
      (poolTerminate st).1 = ⟨[], []⟩ ∧
      (poolGetWorker (poolTerminate st).1 reqId).2 = AcquireResult.pending) := by
  exact ⟨⟨by decide, by decide, by decide, by decide⟩,
    fun st reqId => ⟨rfl, rfl, rfl⟩⟩

/-- C10: restricting the matcher's index argument to the Bloom-filter
candidate subset changes nothing: whenever every key of the index
passes the prefilter test (the invariant the coordinator maintains,
second conjunct: merging a chunk index adds every new key to the
filter), `findDuplicatesInChunk` returns exactly what `findDuplicates`
returns on the whole index. -/
theorem c10_prefilter_refinement :
    ∀ (bf : BloomFilter) (idx : EmailIndex) (chunk : List Row) (src : Str)
      (m : ColumnMapping),
      ((∀ k, (idxLookup idx k).isSome → bf.test k = true) →
        findDuplicatesInChunk bf idx chunk src m = findDuplicates chunk idx src m) ∧
      (∀ (main chunkIdx : EmailIndex),
        (∀ k, (idxLookup main k).isSome → bf.test k = true) →
        ∀ k, (idxLookup (mergeChunkIndex main bf chunkIdx).1 k).isSome →
          (mergeChunkIndex main bf chunkIdx).2.test k = true) := by
  intro bf idx chunk src m
  constructor
  · intro hsup
    unfold findDuplicatesInChunk
    dsimp only
    by_cases hc : candidateEmails bf chunk m = []
    · rw [if_pos hc]
      symm
      apply findDuplicatesAux_nil_of_miss
      intro row hrow
      by_cases he : normalizeEmail (getField row m.emailColumn) = []
      · exact Or.inl he
      · right
        cases hlk : idxLookup idx (normalizeEmail (getField row m.emailColumn)) with
        | none => rfl
        | some recs =>
          exfalso
          have htest : bf.test (normalizeEmail (getField row m.emailColumn)) = true :=
            hsup _ (by rw [hlk]; rfl)
          have := mem_candidateEmails hrow he htest
          rw [hc] at this
          simp at this
    · rw [if_neg hc]
      unfold findDuplicates
      apply findDuplicatesAux_congr
      intro row hrow hne
      rw [getIndexSubset_lookup]
      by_cases hmem : normalizeEmail (getField row m.emailColumn) ∈ candidateEmails bf chunk m
      · rw [if_pos hmem]
      · rw [if_neg hmem]
        cases hlk : idxLookup idx (normalizeEmail (getField row m.emailColumn)) with
        | none => rfl
        | some recs =>
          exfalso
          have htest : bf.test (normalizeEmail (getField row m.emailColumn)) = true :=
            hsup _ (by rw [hlk]; rfl)
          exact hmem (mem_candidateEmails hrow hne htest)
  · intro main chunkIdx hsup k hk
    have hmem := (idxLookup_isSome_iff_mem_keys _ _).1 hk
    rw [mergeChunkIndex_snd]
    rcases idxKeys_mergeChunkIndex chunkIdx main bf k hmem with h' | h'
    · have hbf : bf.test k = true := hsup k ((idxLookup_isSome_iff_mem_keys _ _).2 h')
      exact BloomFilter.test_of_bits_subset k (by rw [bloomAddAll_size])
        (by rw [bloomAddAll_hashCount]) (bloomAddAll_bits_subset bf _) hbf
    · exact bloom_test_addAll_mem ((by exact h') : k ∈ idxKeys chunkIdx)

/-- Concrete single-key index for the C10 witness. -/
def idxA : EmailIndex := [(strLit "a@x.com", [recJonDoe])]

/-- Concrete comparison chunk for the C10 witness. -/
def chunkA : List Row := [[(strLit "email", strLit "A@x.com ")]]

/-- C10 witness: with the key a@x.com both indexed and added to the
filter, the prefiltered chunk run equals the full-index run. -/
theorem c10_prefilter_refinement_witness :
    findDuplicatesInChunk (bloomAddAll (mkBloomFilter 101 2) [strLit "a@x.com"]) idxA
      chunkA (strLit "comp.csv") st0.mapping =
    findDuplicates chunkA idxA (strLit "comp.csv") st0.mapping :=
  (c10_prefilter_refinement (bloomAddAll (mkBloomFilter 101 2) [strLit "a@x.com"]) idxA
    chunkA (strLit "comp.csv") st0.mapping).1 (by
      intro k hk
      by_cases h : strLit "a@x.com" = k
      · subst h
        decide
      · rw [idxA, idxLookup, if_neg h] at hk
        simp [idxLookup] at hk)
